import Mathlib

/-!
Verification development for the semantic-search retrieval/rerank/assembly core.

The TypeScript sources (`src/lib/similarity.ts`, `src/lib/rag.ts`, the reranker
module) are shallowly embedded below.  JavaScript numbers are modelled as exact
rationals (`ℚ`): the source performs only field arithmetic, comparisons, and
decimal rounding via `toFixed`, all of which are modelled exactly; binary
floating-point rounding is outside the model.  JavaScript strings are modelled
as Lean strings (one `Char` per UTF-16 unit; all characters appearing in the
code's regexes and literals are in the BMP, where the two notions agree).
-/

namespace SemanticSearch

/-! ## JavaScript primitives used by the source -/

/-- Lowercasing of one character as done by JS `toLowerCase`, modelled for the
ASCII and Cyrillic ranges, the only ranges the source's regexes distinguish. -/
def jsToLowerChar (c : Char) : Char :=
  if 'A' ≤ c ∧ c ≤ 'Z' then Char.ofNat (c.toNat + 32)
  else if 'А' ≤ c ∧ c ≤ 'Я' then Char.ofNat (c.toNat + 32)
  else if c = 'Ё' then 'ё'
  else c

/-- JS `String.prototype.toLowerCase`, character-wise. -/
def jsToLower (s : String) : String :=
  String.mk (s.toList.map jsToLowerChar)

/-- Regex class `\w`: ASCII letters, digits and underscore. -/
def isWordChar (c : Char) : Bool :=
  (decide ('a' ≤ c) && decide (c ≤ 'z')) || (decide ('A' ≤ c) && decide (c ≤ 'Z')) ||
  (decide ('0' ≤ c) && decide (c ≤ '9')) || decide (c = '_')

/-- Regex class `[а-яё]` under the `i` flag: Cyrillic letters of either case. -/
def isCyrChar (c : Char) : Bool :=
  (decide ('а' ≤ c) && decide (c ≤ 'я')) || decide (c = 'ё') ||
  (decide ('А' ≤ c) && decide (c ≤ 'Я')) || decide (c = 'Ё')

/-- Regex class `\s`, restricted to the ASCII whitespace actually relevant here. -/
def isWsChar (c : Char) : Bool :=
  decide (c = ' ') || decide (c = '\t') || decide (c = '\n') || decide (c = '\r') ||
  decide (c = '\x0b') || decide (c = '\x0c')

/-- Characters that survive `replace(/[^\wа-яё\s]/gi, ' ')` as word material. -/
def isTokenChar (c : Char) : Bool :=
  isWordChar c || isCyrChar c

/-- Splits a character list into the maximal runs of characters satisfying
`keep`; every other character separates runs.  This models
`replace(..., ' ')` followed by `split(/\s+/)` (the possible leading empty
token of the JS split has length 0 and is removed by every later
length filter, so dropping it here is observationally equal). -/
def splitRunsAux (keep : Char → Bool) : List Char → List Char → List (List Char)
  | [], acc => if acc.isEmpty then [] else [acc.reverse]
  | c :: cs, acc =>
    if keep c then splitRunsAux keep cs (c :: acc)
    else if acc.isEmpty then splitRunsAux keep cs []
    else acc.reverse :: splitRunsAux keep cs []

/-- Maximal runs of `keep`-characters of a character list. -/
def splitRuns (keep : Char → Bool) (l : List Char) : List (List Char) :=
  splitRunsAux keep l []

/-- First-occurrence deduplication with an accumulator of words already
seen. -/
def dedupFirstAux (seen : List String) : List String → List String
  | [] => []
  | w :: ws =>
    if seen.contains w then dedupFirstAux seen ws
    else w :: dedupFirstAux (w :: seen) ws

/-- First-occurrence deduplication, the order produced by `[...new Set(xs)]`. -/
def dedupFirst (l : List String) : List String :=
  dedupFirstAux [] l

/-- Does `s` start with `sub` (character-list version)? -/
def startsWithList : List Char → List Char → Bool
  | _, [] => true
  | [], _ :: _ => false
  | a :: s, b :: t => a == b && startsWithList s t

/-- Does `sub` occur contiguously inside `s`?  Models JS `s.includes(sub)`. -/
def containsSub : List Char → List Char → Bool
  | [], sub => startsWithList [] sub
  | s@(_ :: s'), sub => startsWithList s sub || containsSub s' sub

/-- JS `s.includes(sub)`. -/
def jsIncludes (s sub : String) : Bool :=
  containsSub s.toList sub.toList

/-- Rounding of `Number.prototype.toFixed(f)` read back as a number
(`parseFloat(x.toFixed(f))` in the source): the sign is split off, then the
magnitude is rounded to `f` decimal digits, ties to the larger digit. -/
def toFixedRound (f : ℕ) (q : ℚ) : ℚ :=
  if q < 0 then -(((round (-q * 10 ^ f) : ℤ) : ℚ) / 10 ^ f)
  else ((round (q * 10 ^ f) : ℤ) : ℚ) / 10 ^ f

/-- The source's pervasive `parseFloat(x.toFixed(4))`. -/
def round4 (q : ℚ) : ℚ :=
  toFixedRound 4 q

/-- Decimal rendering of `x.toFixed(1)` as used when formatting relevance
percentages. -/
def toFixed1 (q : ℚ) : String :=
  let sign := if q < 0 then "-" else ""
  let x := if q < 0 then -q else q
  let n := (round (x * 10) : ℤ).toNat
  sign ++ toString (n / 10) ++ "." ++ toString (n % 10)

/-- Last-entry-wins association lookup: a JS `Map` built from an entry list
keeps the last value written for a key, and `get` returns it (or
`undefined`, modelled as `none`). -/
def lookupLast : List (String × ℚ) → String → Option ℚ
  | [], _ => none
  | (k, v) :: rest, key =>
    match lookupLast rest key with
    | some v' => some v'
    | none => if k = key then some v else none

/-! ## Data model (`similarity.ts`, reranker module) -/

/-- Chunk metadata; only `position` is inspected by this core. -/
structure ChunkMetadata where
  position : Option ℤ := none
  totalChunks : Option ℤ := none
deriving DecidableEq

/-- An indexed chunk with its embedding vector. -/
structure EmbeddedItem where
  id : String
  text : String
  source : String
  embedding : List ℚ
  metadata : Option ChunkMetadata := none
deriving DecidableEq

/-- A retrieved chunk with its similarity score. -/
structure SearchResult where
  id : String
  text : String
  source : String
  score : ℚ
  metadata : Option ChunkMetadata := none
deriving DecidableEq

/-- A reranked chunk. -/
structure RankedResult extends SearchResult where
  rerank_score : ℚ
  rerank_method : String
  original_rank : ℕ
  boost_reason : Option String := none
deriving DecidableEq

/-- Quality thresholds of the reranker configuration. -/
structure QualityThresholds where
  high : ℚ
  medium : ℚ
  low : ℚ
deriving DecidableEq

/-- Reranker configuration.  `rerank_method` is a string, as in the source,
where the TS union also admits the value `"llm"` that no switch case handles. -/
structure RerankerConfig where
  min_similarity : ℚ
  min_rerank_score : ℚ
  top_k_for_rerank : ℕ
  final_top_k : ℕ
  rerank_method : String
  quality_thresholds : QualityThresholds
deriving DecidableEq

/-- The documented default configuration. -/
def DEFAULT_RERANKER_CONFIG : RerankerConfig :=
  { min_similarity := 0.3
    min_rerank_score := 0.5
    top_k_for_rerank := 20
    final_top_k := 5
    rerank_method := "hybrid"
    quality_thresholds := { high := 0.7, medium := 0.5, low := 0.3 } }

/-- The default configuration with its method field replaced. -/
def cfgWith (m : String) : RerankerConfig :=
  { DEFAULT_RERANKER_CONFIG with rerank_method := m }

/-! ## `similarity.ts` -/

/-- Dot product as the sum of pointwise products. -/
def dotProduct (v1 v2 : List ℚ) : ℚ :=
  (List.zipWith (· * ·) v1 v2).sum

/-- Model of `cosineSimilarity`: dimension check, then the index loop
`for i in [0, vec1.length): dot += vec1[i] * vec2[i]`. -/
def cosineSimilarity (vec1 vec2 : List ℚ) : Except String ℚ :=
  if vec1.length ≠ vec2.length then
    .error "Векторы должны иметь одинаковую размерность"
  else
    .ok ((List.range vec1.length).foldl (fun acc i => acc + vec1.getD i 0 * vec2.getD i 0) 0)

/-- Projection of an `EmbeddedItem` to a `SearchResult` with a given score,
as built inside `findMostSimilar`. -/
def mkSearchResult (item : EmbeddedItem) (score : ℚ) : SearchResult :=
  { id := item.id, text := item.text, source := item.source
    score := score, metadata := item.metadata }

/-- Comparator `(a, b) => b.score - a.score` of the JS stable sort: `a` may
come before `b` iff `b.score ≤ a.score`. -/
def scoreDescRel (a b : SearchResult) : Prop :=
  b.score ≤ a.score

instance : DecidableRel scoreDescRel :=
  fun a b => inferInstanceAs (Decidable (b.score ≤ a.score))

instance : IsTotal SearchResult scoreDescRel :=
  ⟨fun a b => le_total b.score a.score⟩

instance : IsTrans SearchResult scoreDescRel :=
  ⟨fun _ _ _ h1 h2 => le_trans h2 h1⟩

/-- Model of `findMostSimilar`: score every item, stable-sort descending, take `topK`.
JS `Array.prototype.sort` is specified to be stable; it is modelled by the
stable `List.insertionSort`. -/
def findMostSimilar (queryEmbedding : List ℚ) (items : List EmbeddedItem)
    (topK : ℕ := 5) : Except String (List SearchResult) := do
  let results ← items.mapM fun item =>
    (cosineSimilarity queryEmbedding item.embedding).map (mkSearchResult item)
  pure ((results.insertionSort scoreDescRel).take topK)

/-- The scored result list of `findMostSimilar` before sorting, in corpus
order, with the loop of `cosineSimilarity` summarised as `dotProduct` (the
two agree whenever the dimensions match). -/
def scoredResults (queryEmbedding : List ℚ) (items : List EmbeddedItem) : List SearchResult :=
  items.map fun item => mkSearchResult item (dotProduct queryEmbedding item.embedding)

/-! ## Reranker module -/

/-- The fixed stop-word set of `extractKeywords`. -/
def stopWords : List String :=
  ["и", "в", "на", "с", "по", "для", "от", "до", "из", "к", "о", "у",
   "the", "is", "at", "which", "on", "a", "an", "as", "are", "was", "were",
   "это", "этот", "эта", "быть", "был", "была", "были", "есть"]

/-- Model of `extractKeywords`: lowercase, keep only `[\wа-яё\s]` characters, split on
whitespace, keep words of length `> 2` outside the stop-word set, and
deduplicate keeping first occurrences. -/
def extractKeywords (text : String) : List String :=
  let words := (splitRuns isTokenChar (jsToLower text).toList).map fun w => String.mk w
  dedupFirst (words.filter fun w => decide (2 < w.length) && !(stopWords.contains w))

/-- Query keywords that match some document keyword, where either token may
contain the other as a substring. -/
def matchingKeywords (query text : String) : List String :=
  (extractKeywords query).filter fun kw =>
    (extractKeywords text).any fun dk => jsIncludes dk kw || jsIncludes kw dk

/-- The keyword overlap ratio `|matching| / max(|query keywords|, 1)`. -/
def keywordBoost (query text : String) : ℚ :=
  ((matchingKeywords query text).length : ℚ) / (max (extractKeywords query).length 1 : ℕ)

/-- Comparator `(a, b) => b.rerank_score - a.rerank_score` of the JS stable
sort on ranked results. -/
def rankedDescRel (a b : RankedResult) : Prop :=
  b.rerank_score ≤ a.rerank_score

instance : DecidableRel rankedDescRel :=
  fun a b => inferInstanceAs (Decidable (b.rerank_score ≤ a.rerank_score))

instance : IsTotal RankedResult rankedDescRel :=
  ⟨fun a b => le_total b.rerank_score a.rerank_score⟩

instance : IsTrans RankedResult rankedDescRel :=
  ⟨fun _ _ _ h1 h2 => le_trans h2 h1⟩

/-- Index-aware map: `xs.map((x, i) => f(i, x))` starting at index `n`. -/
def mapIdxFrom (f : ℕ → α → β) : ℕ → List α → List β
  | _, [] => []
  | n, a :: l => f n a :: mapIdxFrom f (n + 1) l

/-- One record of the keyword-boost pass, before sorting. -/
def kwRecord (query : String) (idx : ℕ) (result : SearchResult) : RankedResult :=
  let matching := matchingKeywords query result.text
  { toSearchResult := result
    rerank_score := round4 (result.score * 0.7 + keywordBoost query result.text * 0.3)
    rerank_method := "keyword-boost"
    original_rank := idx + 1
    boost_reason :=
      if matching.length > 0 then
        some ("Найдено " ++ toString matching.length ++ " ключевых слов")
      else none }

/-- Model of `rerankByKeywords`: boost by keyword overlap, then stable-sort
descending by `rerank_score`. -/
def rerankByKeywords (query : String) (results : List SearchResult) : List RankedResult :=
  (mapIdxFrom (kwRecord query) 0 results).insertionSort rankedDescRel

/-- Does the list contain a decimal digit (regex `\d+` would match)? -/
def hasDigit (l : List Char) : Bool :=
  l.any fun c => decide ('0' ≤ c) && decide (c ≤ '9')

/-- Regex class `[A-ZА-Я]`. -/
def isUpperRe (c : Char) : Bool :=
  (decide ('A' ≤ c) && decide (c ≤ 'Z')) || (decide ('А' ≤ c) && decide (c ≤ 'Я'))

/-- Regex class `[a-zа-я]`. -/
def isLowerRe (c : Char) : Bool :=
  (decide ('a' ≤ c) && decide (c ≤ 'z')) || (decide ('а' ≤ c) && decide (c ≤ 'я'))

/-- Does `[A-ZА-Я][a-zа-я]+\s+[A-ZА-Я][a-zа-я]+` match at the head of the
list?  The three character classes are mutually disjoint, so maximal-munch
scanning coincides with regex existence semantics. -/
def capPairAtHead (l : List Char) : Bool :=
  match l with
  | [] => false
  | u :: rest =>
    isUpperRe u &&
      (let rest2 := rest.dropWhile isLowerRe
       decide (rest.takeWhile isLowerRe ≠ []) &&
        (let rest3 := rest2.dropWhile isWsChar
         decide (rest2.takeWhile isWsChar ≠ []) &&
          (match rest3 with
           | u2 :: rest4 => isUpperRe u2 && decide (rest4.takeWhile isLowerRe ≠ [])
           | [] => false)))

/-- Does `[A-ZА-Я][a-zа-я]+\s+[A-ZА-Я][a-zа-я]+` match anywhere? -/
def hasCapPair : List Char → Bool
  | [] => false
  | c :: cs => capPairAtHead (c :: cs) || hasCapPair cs

/-- The test `/\d+|[A-ZА-Я][a-zа-я]+\s+[A-ZА-Я][a-zа-я]+/.test(text)`. -/
def hasSpecificData (text : String) : Bool :=
  hasDigit text.toList || hasCapPair text.toList

/-- Number of query words of length `> 3` found verbatim (case-insensitively)
in the text: `query.toLowerCase().split(/\s+/)` filtered by containment. -/
def directMatchCount (query text : String) : ℕ :=
  let queryWords := (splitRuns (fun c => !isWsChar c) (jsToLower query).toList).map
    fun w => String.mk w
  (queryWords.filter fun w => decide (3 < w.length) && jsIncludes (jsToLower text) w).length

/-- One record of the semantic-deep pass, before sorting: four additive
boosts, clamp at 1, round to 4 decimals, explain the fired factors. -/
def semRecord (query : String) (idx : ℕ) (result : SearchResult) : RankedResult :=
  let positionBoost : ℚ := if result.metadata.bind (·.position) = some 0 then 0.1 else 0
  let textLength := result.text.length
  let lengthBoost : ℚ := if 200 ≤ textLength ∧ textLength ≤ 500 then 0.05 else 0
  let dataBoost : ℚ := if hasSpecificData result.text then 0.05 else 0
  let directMatches := directMatchCount query result.text
  let directMatchBoost : ℚ := min ((directMatches : ℚ) * 0.05) 0.15
  let score := min (result.score + positionBoost + lengthBoost + dataBoost + directMatchBoost) 1
  let boostFactors : List String :=
    (if positionBoost > 0 then ["первый чанк"] else []) ++
    (if lengthBoost > 0 then ["оптимальная длина"] else []) ++
    (if dataBoost > 0 then ["конкретные данные"] else []) ++
    (if directMatchBoost > 0 then [toString directMatches ++ " прямых совпадений"] else [])
  { toSearchResult := result
    rerank_score := round4 score
    rerank_method := "semantic-deep"
    original_rank := idx + 1
    boost_reason :=
      if boostFactors.length > 0 then some (String.intercalate ", " boostFactors) else none }

/-- Model of `rerankBySemantic`: heuristic boosts, then stable-sort descending. -/
def rerankBySemantic (query : String) (results : List SearchResult) : List RankedResult :=
  (mapIdxFrom (semRecord query) 0 results).insertionSort rankedDescRel

/-- Combination step of the hybrid pass: look the candidate's id up in the
semantic entry map; `semanticMap.get(id) || result.score` makes both a
missing id and an exactly-zero score fall back to the original score. -/
def hybridCombine (semanticEntries : List (String × ℚ)) (result : RankedResult) : RankedResult :=
  let semanticScore : ℚ :=
    match lookupLast semanticEntries result.id with
    | some s => if s = 0 then result.score else s
    | none => result.score
  { result with
    rerank_score := round4 (result.rerank_score * 0.5 + semanticScore * 0.5)
    rerank_method := "hybrid"
    boost_reason := result.boost_reason }

/-- The hybrid list before its final sort: the keyword pass's output, each
record combined with the semantic pass's score for its id. -/
def hybridBase (query : String) (results : List SearchResult) : List RankedResult :=
  let keywordResults := rerankByKeywords query results
  let semanticResults := rerankBySemantic query results
  keywordResults.map (hybridCombine (semanticResults.map fun r => (r.id, r.rerank_score)))

/-- Model of `rerankHybrid`: run both passes, average the scores 50/50 matched by id,
then stable-sort descending. -/
def rerankHybrid (query : String) (results : List SearchResult) : List RankedResult :=
  (hybridBase query results).insertionSort rankedDescRel

/-- One record of the `none` passthrough (no sorting happens in that branch). -/
def noneRecord (idx : ℕ) (result : SearchResult) : RankedResult :=
  { toSearchResult := result
    rerank_score := result.score
    rerank_method := "none"
    original_rank := idx + 1
    boost_reason := none }

/-- Model of `rerankResults`: dispatch on the configured method; the default switch
case runs the hybrid method. -/
def rerankResults (query : String) (searchResults : List SearchResult)
    (config : RerankerConfig := DEFAULT_RERANKER_CONFIG) : List RankedResult :=
  if searchResults.length = 0 then []
  else
    match config.rerank_method with
    | "keyword-boost" => rerankByKeywords query searchResults
    | "semantic-deep" => rerankBySemantic query searchResults
    | "hybrid" => rerankHybrid query searchResults
    | "none" => mapIdxFrom noneRecord 0 searchResults
    | _ => rerankHybrid query searchResults

/-! ## `rag.ts` -/

/-- One step of the grouping `reduce`: append the result to its source's
bucket, creating the bucket on first encounter.  Insertion order of buckets is
preserved (JS object key order for the non-integer-like source names). -/
def addToGroup : List (String × List SearchResult) → SearchResult →
    List (String × List SearchResult)
  | [], r => [(r.source, [r])]
  | (s, rs) :: rest, r =>
    if s = r.source then (s, rs ++ [r]) :: rest else (s, rs) :: addToGroup rest r

/-- Grouping of results by `source`, as the `reduce` in `formatContextForLLM`. -/
def groupBySource (results : List SearchResult) : List (String × List SearchResult) :=
  results.foldl addToGroup []

/-- One fragment line of `formatContextForLLM` for a plain `SearchResult`
(`'rerank_score' in chunk` is false on this input type, so the `score` field
is the one formatted and no boost line is emitted). -/
def chunkLine (chunkIndex : ℕ) (chunk : SearchResult) : String :=
  "\n[Фрагмент " ++ toString (chunkIndex + 1) ++ ", релевантность: " ++
    toFixed1 (chunk.score * 100) ++ "%]\n" ++ chunk.text ++ "\n"

/-- One per-source block of `formatContextForLLM`. -/
def sourceBlock (index : ℕ) (source : String) (chunks : List SearchResult) : String :=
  "\n--- ДОКУМЕНТ " ++ toString (index + 1) ++ ": " ++ source ++ " ---\n" ++
    String.join (mapIdxFrom chunkLine 0 chunks)

/-- Model of `formatContextForLLM` on plain search results: fallback message when
empty, otherwise the concatenated per-source blocks, trimmed. -/
def formatContextForLLM (results : List SearchResult) : String :=
  if results.length = 0 then "Релевантной информации в документах не найдено."
  else
    (String.join (mapIdxFrom (fun i g => sourceBlock i g.1 g.2) 0 (groupBySource results))).trim

/-- The tagged block whose length `prepareContextWithLimit` budgets for one
result. -/
def chunkBlock (result : SearchResult) : String :=
  "\n[" ++ result.source ++ "]\n" ++ result.text ++ "\n"

/-- The selection loop of `prepareContextWithLimit`: accept results in order
while the running block-length total stays within `maxChars`; `break` on the
first result that does not fit. -/
def selectWithLimit (maxChars : ℕ) : List SearchResult → ℕ → List SearchResult
  | [], _ => []
  | r :: rs, currentLength =>
    if currentLength + (chunkBlock r).length ≤ maxChars then
      r :: selectWithLimit maxChars rs (currentLength + (chunkBlock r).length)
    else []

/-- Model of `prepareContextWithLimit`: select greedily under the budget, then format
the selected results with `formatContextForLLM`. -/
def prepareContextWithLimit (results : List SearchResult) (maxChars : ℕ := 8000) : String :=
  formatContextForLLM (selectWithLimit maxChars results 0)

/-- Total length of the budgeted blocks of a result list. -/
def blockLenSum (results : List SearchResult) : ℕ :=
  (results.map fun r => (chunkBlock r).length).sum

/-- The quality assessment returned by `evaluateContextQuality`; the empty
branch omits the score fields. -/
structure QualityAssessment where
  quality : String
  confidence : ℚ
  recommendation : String
  avgScore : Option ℚ := none
  maxScore : Option ℚ := none
  totalChunks : Option ℕ := none
deriving DecidableEq

/-- Model of `Math.max(...scores)` over the non-empty list of scores. -/
def foldMax : List ℚ → ℚ
  | [] => 0
  | x :: xs => xs.foldl max x

/-- The local `avgScore` of `evaluateContextQuality`: the arithmetic mean of
the scores. -/
def avgScoreOf (results : List SearchResult) : ℚ :=
  (results.map (·.score)).sum / (results.length : ℚ)

/-- The local `maxScore` of `evaluateContextQuality`: the maximum score. -/
def maxScoreOf (results : List SearchResult) : ℚ :=
  foldMax (results.map (·.score))

/-- Model of `evaluateContextQuality`: threshold classification of the score
distribution. -/
def evaluateContextQuality (results : List SearchResult) : QualityAssessment :=
  if results.length = 0 then
    { quality := "none", confidence := 0
      recommendation := "Релевантной информации не найдено. Модель ответит из общих знаний." }
  else if maxScoreOf results > 0.7 ∧ avgScoreOf results > 0.5 then
    { quality := "high", confidence := 0.9
      recommendation := "Найдена высокорелевантная информация. Ответ будет точным."
      avgScore := some (round4 (avgScoreOf results)), maxScore := some (round4 (maxScoreOf results))
      totalChunks := some results.length }
  else if maxScoreOf results > 0.5 ∧ avgScoreOf results > 0.3 then
    { quality := "medium", confidence := 0.6
      recommendation := "Найдена частично релевантная информация. Ответ может быть неполным."
      avgScore := some (round4 (avgScoreOf results)), maxScore := some (round4 (maxScoreOf results))
      totalChunks := some results.length }
  else
    { quality := "low", confidence := 0.3
      recommendation := "Релевантность низкая. Рекомендуется режим без RAG или уточните запрос."
      avgScore := some (round4 (avgScoreOf results)), maxScore := some (round4 (maxScoreOf results))
      totalChunks := some results.length }

/-- Rank of a quality tier in the order none < low < medium < high. -/
def tierRank (q : String) : ℕ :=
  if q = "high" then 3 else if q = "medium" then 2 else if q = "low" then 1 else 0

/-! ## Concrete demonstration inputs used by witnesses and counterexamples -/

/-- Demonstration corpus for the C3 witness. -/
def demoItems : List EmbeddedItem :=
  [{ id := "a", text := "ta", source := "s", embedding := [1] },
   { id := "b", text := "tb", source := "s", embedding := [0.5] }]

/-- Demonstration input for the C1 witness: one result whose budgeted block
has length 9. -/
def demoC1 : List SearchResult :=
  [{ id := "r", text := "abc", source := "s", score := 0.5 }]

/-- Candidate refuting C5 as literally stated: its score has five decimal
digits, so `0.7 * score` is changed by the source's `toFixed(4)` rounding. -/
def candC5 : SearchResult :=
  { id := "a", text := "t", source := "s", score := 12345 / 100000 }

/-- Concrete keyword-boost input for the C5 witness. -/
def candC5w : SearchResult :=
  { id := "b", text := "abc", source := "s", score := 0.5 }

/-- The record produced for `candC5w` by the keyword-boost pass. -/
def rankedC5w : RankedResult :=
  { toSearchResult := candC5w, rerank_score := 0.65, rerank_method := "keyword-boost"
    original_rank := 1, boost_reason := some "Найдено 1 ключевых слов" }

/-- Candidate refuting C4: its semantic-deep score is exactly 0 (score
−0.05 plus the 0.05 specific-data boost for the digit in the text), which
the JS `||` treats as missing, so the original −0.05 is combined instead
of 0. -/
def candC4 : SearchResult :=
  { id := "a", text := "7", source := "s", score := -(1 / 20) }

/-- The record produced for `candC4` by the hybrid pass. -/
def rankedC4 : RankedResult :=
  { toSearchResult := candC4, rerank_score := -(0.0425), rerank_method := "hybrid"
    original_rank := 1, boost_reason := none }

/-- Input refuting C6: two results in ascending score order. -/
def rsPair : List SearchResult :=
  [{ id := "x", text := "t1", source := "s", score := 0.1 },
   { id := "y", text := "t2", source := "s", score := 0.9 }]

/-- Demonstration input for the C10 witness. -/
def demoC10 : List SearchResult :=
  [{ id := "a", text := "t", source := "s", score := 0.4 }]

/-- Demonstration input for the C7 witness. -/
def demoHigh : List SearchResult :=
  [{ id := "h", text := "t", source := "s", score := 0.8 }]

/-- Demonstration inputs for the C8 witness: equal average 0.5, maxima 0.8
and 0.5. -/
def demoMaxHigh : List SearchResult :=
  [{ id := "1", text := "t", source := "s", score := 0.8 },
   { id := "2", text := "t", source := "s", score := 0.2 }]

/-- Second demonstration input for the C8 witness. -/
def demoMaxLow : List SearchResult :=
  [{ id := "3", text := "t", source := "s", score := 0.5 },
   { id := "4", text := "t", source := "s", score := 0.5 }]

/-! ## General-purpose lemmas -/

lemma dotLoop_eq :
    ∀ (v1 v2 : List ℚ) (c : ℚ), v1.length = v2.length →
      (List.range v1.length).foldl (fun acc i => acc + v1.getD i 0 * v2.getD i 0) c
        = c + dotProduct v1 v2 := by
  intro v1
  induction v1 with
  | nil => intro v2 c _; simp [dotProduct]
  | cons a t ih =>
    intro v2 c h
    cases v2 with
    | nil => simp at h
    | cons b v2' =>
      have h' : t.length = v2'.length := by simpa using h
      simp only [List.length_cons, List.range_succ_eq_map, List.foldl_cons, List.foldl_map,
        List.getD_cons_zero, List.getD_cons_succ, Nat.succ_eq_add_one]
      rw [ih v2' (c + a * b) h']
      simp only [dotProduct, List.zipWith_cons_cons, List.sum_cons]
      ring

lemma cosineSimilarity_ok (v1 v2 : List ℚ) (h : v1.length = v2.length) :
    cosineSimilarity v1 v2 = .ok (dotProduct v1 v2) := by
  rw [cosineSimilarity, if_neg (by omega)]
  rw [dotLoop_eq v1 v2 0 h, zero_add]

/-! ## Lemmas about `mapIdxFrom` -/

lemma mapIdxFrom_map {α β γ : Type} (g : ℕ → α → β) (h : β → γ) (h' : α → γ)
    (hc : ∀ n a, h (g n a) = h' a) :
    ∀ (n : ℕ) (l : List α), (mapIdxFrom g n l).map h = l.map h' := by
  intro n l
  induction l generalizing n with
  | nil => rfl
  | cons a t ih => simp [mapIdxFrom, hc, ih]

lemma mem_mapIdxFrom {α β : Type} {g : ℕ → α → β} :
    ∀ {n : ℕ} {l : List α} {x : β}, x ∈ mapIdxFrom g n l → ∃ i a, a ∈ l ∧ x = g i a := by
  intro n l
  induction l generalizing n with
  | nil => intro x hx; cases hx
  | cons a t ih =>
    intro x hx
    rcases hx with _ | ⟨_, hx⟩
    · exact ⟨n, a, List.mem_cons_self a t, rfl⟩
    · obtain ⟨i, b, hb, hxe⟩ := ih hx
      exact ⟨i, b, List.mem_cons_of_mem a hb, hxe⟩

lemma mapIdxFrom_rank_gt {α : Type} {g : ℕ → α → RankedResult}
    (hg : ∀ n a, (g n a).original_rank = n + 1) :
    ∀ (n : ℕ) (l : List α), ∀ x ∈ mapIdxFrom g n l, n < x.original_rank := by
  intro n l
  induction l generalizing n with
  | nil => intro x hx; cases hx
  | cons a t ih =>
    intro x hx
    rcases hx with _ | ⟨_, hx⟩
    · rw [hg]; omega
    · have := ih (n + 1) x hx; omega

lemma mapIdxFrom_rank_pairwise {α : Type} {g : ℕ → α → RankedResult}
    (hg : ∀ n a, (g n a).original_rank = n + 1) :
    ∀ (n : ℕ) (l : List α),
      (mapIdxFrom g n l).Pairwise fun x y => x.original_rank < y.original_rank := by
  intro n l
  induction l generalizing n with
  | nil => exact List.Pairwise.nil
  | cons a t ih =>
    refine List.Pairwise.cons (fun y hy => ?_) (ih (n + 1))
    have := mapIdxFrom_rank_gt hg (n + 1) t y hy
    rw [hg]; omega

/-! ## Stable-sort lemmas -/

lemma filter_insertionSort_class {α : Type} (r : α → α → Prop) [DecidableRel r]
    (p : α → Bool) (hp : ∀ a b, p a → p b → r a b) (l : List α) :
    (l.insertionSort r).filter p = l.filter p := by
  have hpw : (l.filter p).Pairwise r :=
    List.pairwise_of_forall_mem_list fun a ha b hb =>
      hp a b (List.of_mem_filter ha) (List.of_mem_filter hb)
  have h1 : List.Sublist (l.filter p) (l.insertionSort r) :=
    List.sublist_insertionSort hpw (List.filter_sublist l)
  have h2 : List.Sublist (l.filter p) ((l.insertionSort r).filter p) := by
    have h3 := h1.filter p
    simpa [List.filter_filter] using h3
  have hlen : (l.filter p).length = ((l.insertionSort r).filter p).length := by
    rw [← List.countP_eq_length_filter, ← List.countP_eq_length_filter]
    exact ((List.perm_insertionSort r l).countP_eq p).symm
  exact (h2.eq_of_length hlen).symm

lemma pairwise_of_filter_classes {α : Type} (key : α → ℚ) (R : α → α → Prop) :
    ∀ (l : List α), (∀ s : ℚ, (l.filter fun x => decide (key x = s)).Pairwise R) →
      l.Pairwise fun a b => key a = key b → R a b := by
  intro l
  induction l with
  | nil => intro _; exact List.Pairwise.nil
  | cons x t ih =>
    intro h
    refine List.Pairwise.cons (fun b hb hkb => ?_) (ih fun s => ?_)
    · have hx := h (key x)
      rw [List.filter_cons, if_pos (by simp)] at hx
      exact List.rel_of_pairwise_cons hx (List.mem_filter.mpr ⟨hb, by simp [hkb.symm]⟩)
    · have hs := h s
      rw [List.filter_cons] at hs
      by_cases hc : key x = s
      · rw [if_pos (by simp [hc])] at hs
        exact hs.of_cons
      · rwa [if_neg (by simp [hc])] at hs

lemma filter_take_front {α : Type} (p : α → Bool) (l : List α) (k : ℕ) :
    (l.take k).filter p <+: l.filter p :=
  ⟨(l.drop k).filter p, by rw [← List.filter_append, List.take_append_drop]⟩

lemma foldMax_spec_aux :
    ∀ (xs : List ℚ) (a : ℚ), (xs.foldl max a = a ∨ xs.foldl max a ∈ xs) ∧
      a ≤ xs.foldl max a ∧ ∀ x ∈ xs, x ≤ xs.foldl max a := by
  intro xs
  induction xs with
  | nil => intro a; simp
  | cons y ys ih =>
    intro a
    obtain ⟨h1, h2, h3⟩ := ih (max a y)
    simp only [List.foldl_cons]
    refine ⟨?_, le_trans (le_max_left a y) h2, fun x hx => ?_⟩
    · rcases h1 with h | h
      · rcases le_total a y with hay | hya
        · right; rw [h, max_eq_right hay]; exact List.mem_cons_self y ys
        · left; rw [h, max_eq_left hya]
      · right; exact List.mem_cons_of_mem y h
    · rcases List.mem_cons.mp hx with rfl | hx'
      · exact le_trans (le_max_right a x) h2
      · exact h3 x hx'

lemma foldMax_spec (l : List ℚ) (h : l ≠ []) :
    foldMax l ∈ l ∧ ∀ x ∈ l, x ≤ foldMax l := by
  cases l with
  | nil => exact absurd rfl h
  | cons x xs =>
    obtain ⟨h1, h2, h3⟩ := foldMax_spec_aux xs x
    refine ⟨?_, fun y hy => ?_⟩
    · rcases h1 with he | hm
      · rw [foldMax, he]; exact List.mem_cons_self x xs
      · exact List.mem_cons_of_mem x hm
    · rcases List.mem_cons.mp hy with rfl | hy'
      · exact h2
      · exact h3 y hy'

lemma quality_eq (results : List SearchResult) (h : results ≠ []) :
    (evaluateContextQuality results).quality =
      if maxScoreOf results > 0.7 ∧ avgScoreOf results > 0.5 then "high"
      else if maxScoreOf results > 0.5 ∧ avgScoreOf results > 0.3 then "medium"
      else "low" := by
  have hlen : ¬results.length = 0 := by simpa [List.length_eq_zero] using h
  rw [evaluateContextQuality, if_neg hlen]
  split_ifs <;> rfl

lemma tierRank_ite_mono (m1 m2 avg : ℚ) (hm : m2 ≤ m1) :
    tierRank (if m2 > 0.7 ∧ avg > 0.5 then "high"
      else if m2 > 0.5 ∧ avg > 0.3 then "medium" else "low") ≤
    tierRank (if m1 > 0.7 ∧ avg > 0.5 then "high"
      else if m1 > 0.5 ∧ avg > 0.3 then "medium" else "low") := by
  by_cases hA : m2 > 0.7 ∧ avg > 0.5
  · rw [if_pos hA, if_pos ⟨lt_of_lt_of_le hA.1 hm, hA.2⟩]
  · rw [if_neg hA]
    by_cases hB : m2 > 0.5 ∧ avg > 0.3
    · rw [if_pos hB]
      by_cases hC : m1 > 0.7 ∧ avg > 0.5
      · rw [if_pos hC]; simp [tierRank]
      · rw [if_neg hC, if_pos ⟨lt_of_lt_of_le hB.1 hm, hB.2⟩]
    · rw [if_neg hB]
      by_cases hC : m1 > 0.7 ∧ avg > 0.5
      · rw [if_pos hC]; simp [tierRank]
      · rw [if_neg hC]
        by_cases hD : m1 > 0.5 ∧ avg > 0.3
        · rw [if_pos hD]; simp [tierRank]
        · rw [if_neg hD]

/-! ## Unfolding lemmas for `rerankResults` -/

lemma rerankResults_kw (q : String) (rs : List SearchResult) :
    rerankResults q rs (cfgWith "keyword-boost") = rerankByKeywords q rs := by
  cases rs with
  | nil => rfl
  | cons a t => rfl

lemma rerankResults_sem (q : String) (rs : List SearchResult) :
    rerankResults q rs (cfgWith "semantic-deep") = rerankBySemantic q rs := by
  cases rs with
  | nil => rfl
  | cons a t => rfl

lemma rerankResults_hyb (q : String) (rs : List SearchResult) :
    rerankResults q rs (cfgWith "hybrid") = rerankHybrid q rs := by
  cases rs with
  | nil => rfl
  | cons a t => rfl

lemma rerankResults_none (q : String) (rs : List SearchResult) :
    rerankResults q rs (cfgWith "none") = mapIdxFrom noneRecord 0 rs := by
  cases rs with
  | nil => rfl
  | cons a t => rfl

lemma rerankResults_default (q : String) (rs : List SearchResult) (m : String)
    (h1 : m ≠ "keyword-boost") (h2 : m ≠ "semantic-deep")
    (h3 : m ≠ "hybrid") (h4 : m ≠ "none") :
    rerankResults q rs (cfgWith m) = rerankHybrid q rs := by
  cases rs with
  | nil => rfl
  | cons a t =>
    unfold rerankResults
    rw [if_neg (by simp)]
    have hm : (cfgWith m).rerank_method = m := rfl
    split
    · exact absurd (by assumption) (by rw [hm]; exact h1)
    · exact absurd (by assumption) (by rw [hm]; exact h2)
    · exact absurd (by assumption) (by rw [hm]; exact h3)
    · exact absurd (by assumption) (by rw [hm]; exact h4)
    · rfl

/-! ## Identity preservation of the rerank passes -/

lemma sorted_mapIdx_ids_perm (g : ℕ → SearchResult → RankedResult)
    (hg : ∀ n a, (g n a).id = a.id) (rs : List SearchResult) :
    (((mapIdxFrom g 0 rs).insertionSort rankedDescRel).map (·.id)).Perm
      (rs.map (·.id)) := by
  have h1 := (List.perm_insertionSort rankedDescRel (mapIdxFrom g 0 rs)).map (·.id)
  rwa [mapIdxFrom_map g (·.id) (·.id) hg] at h1

lemma hybridBase_ids (q : String) (rs : List SearchResult) :
    (hybridBase q rs).map (·.id) = (rerankByKeywords q rs).map (·.id) := by
  simp only [hybridBase, List.map_map]
  rfl

lemma hybrid_ids_perm (q : String) (rs : List SearchResult) :
    ((rerankHybrid q rs).map (·.id)).Perm (rs.map (·.id)) := by
  have h1 := (List.perm_insertionSort rankedDescRel (hybridBase q rs)).map (·.id)
  rw [hybridBase_ids] at h1
  exact h1.trans (sorted_mapIdx_ids_perm (kwRecord q) (fun _ _ => rfl) rs)

/-! ## Claim theorems -/

/-- C2: for every query, result list and reranker configuration — whatever
the configured method string — the ids of the list returned by
`rerankResults` are a permutation of the input ids, hence the id sets agree
and the cardinality is preserved: reranking never invents or drops items. -/
theorem claim_C2_id_perm (q : String) (rs : List SearchResult) (cfg : RerankerConfig) :
    ((rerankResults q rs cfg).map (·.id)).Perm (rs.map (·.id)) ∧
    (∀ i : String, i ∈ (rerankResults q rs cfg).map (·.id) ↔ i ∈ rs.map (·.id)) ∧
    (rerankResults q rs cfg).length = rs.length := by
  have hperm : ((rerankResults q rs cfg).map (·.id)).Perm (rs.map (·.id)) := by
    cases rs with
    | nil => simp [rerankResults]
    | cons a t =>
      unfold rerankResults
      rw [if_neg (by simp)]
      split
      · exact sorted_mapIdx_ids_perm (kwRecord q) (fun _ _ => rfl) (a :: t)
      · exact sorted_mapIdx_ids_perm (semRecord q) (fun _ _ => rfl) (a :: t)
      · exact hybrid_ids_perm q (a :: t)
      · exact .of_eq (mapIdxFrom_map noneRecord (·.id) (·.id) (fun _ _ => rfl) 0 (a :: t))
      · exact hybrid_ids_perm q (a :: t)
  refine ⟨hperm, fun i => hperm.mem_iff, ?_⟩
  have := hperm.length_eq
  simpa using this

/-- C10: calling `rerankResults` with an unrecognized method string — such
as the value `"llm"` that the `RerankerConfig` type admits but no switch
case handles — does not fail: it returns exactly the hybrid reranking
results, whose `rerank_method` fields read `"hybrid"`. -/
theorem claim_C10_default_hybrid (q : String) (rs : List SearchResult) (m : String)
    (h1 : m ≠ "keyword-boost") (h2 : m ≠ "semantic-deep")
    (h3 : m ≠ "hybrid") (h4 : m ≠ "none") :
    rerankResults q rs (cfgWith m) = rerankHybrid q rs ∧
    ∀ x ∈ rerankResults q rs (cfgWith m), x.rerank_method = "hybrid" := by
  have he := rerankResults_default q rs m h1 h2 h3 h4
  refine ⟨he, fun x hx => ?_⟩
  rw [he] at hx
  have hx' : x ∈ hybridBase q rs :=
    (List.perm_insertionSort rankedDescRel (hybridBase q rs)).mem_iff.mp hx
  simp only [hybridBase] at hx'
  obtain ⟨y, _, rfl⟩ := List.mem_map.mp hx'
  rfl

/-! ## Lemmas about the budgeted selection loop -/

lemma selectWithLimit_take (maxChars : ℕ) :
    ∀ (rs : List SearchResult) (cur : ℕ),
      ∃ n, selectWithLimit maxChars rs cur = rs.take n := by
  intro rs
  induction rs with
  | nil => intro cur; exact ⟨0, rfl⟩
  | cons r t ih =>
    intro cur
    rw [selectWithLimit]
    split
    · obtain ⟨n, hn⟩ := ih (cur + (chunkBlock r).length)
      exact ⟨n + 1, by rw [hn]; rfl⟩
    · exact ⟨0, rfl⟩

lemma selectWithLimit_budget (maxChars : ℕ) :
    ∀ (rs : List SearchResult) (cur : ℕ),
      cur + blockLenSum (selectWithLimit maxChars rs cur) ≤ maxChars ∨
      selectWithLimit maxChars rs cur = [] := by
  intro rs
  induction rs with
  | nil => intro cur; right; rfl
  | cons r t ih =>
    intro cur
    rw [selectWithLimit]
    split
    · left
      rename_i hfit
      rcases ih (cur + (chunkBlock r).length) with h | h
      · simp only [blockLenSum, List.map_cons, List.sum_cons] at h ⊢
        omega
      · rw [h]
        simp only [blockLenSum, List.map_cons, List.map_nil, List.sum_cons, List.sum_nil]
        omega
    · right; rfl

lemma selectWithLimit_all (maxChars : ℕ) :
    ∀ (rs : List SearchResult) (cur : ℕ), cur + blockLenSum rs ≤ maxChars →
      selectWithLimit maxChars rs cur = rs := by
  intro rs
  induction rs with
  | nil => intro cur _; rfl
  | cons r t ih =>
    intro cur hall
    simp only [blockLenSum, List.map_cons, List.sum_cons] at hall
    rw [selectWithLimit, if_pos (by omega)]
    rw [ih (cur + (chunkBlock r).length) (by simp only [blockLenSum]; omega)]

lemma selectWithLimit_stop (maxChars : ℕ) :
    ∀ (rs : List SearchResult) (cur : ℕ),
      (selectWithLimit maxChars rs cur).length < rs.length →
      maxChars < cur + blockLenSum (rs.take ((selectWithLimit maxChars rs cur).length + 1)) := by
  intro rs
  induction rs with
  | nil => intro cur h; simp at h
  | cons r t ih =>
    intro cur
    rw [selectWithLimit]
    split
    · intro hlen
      simp only [List.length_cons] at hlen
      have h1 := ih (cur + (chunkBlock r).length) (by omega)
      simp only [List.length_cons, List.take_succ_cons, blockLenSum, List.map_cons,
        List.sum_cons] at h1 ⊢
      omega
    · intro _
      rename_i hnofit
      simp only [List.length_nil, Nat.zero_add, List.take_succ_cons, List.take_zero,
        blockLenSum, List.map_cons, List.map_nil, List.sum_cons, List.sum_nil]
      omega

/-- Helper for C3: a `mapM` over `Except` whose every step succeeds
returns the successful map. -/
lemma mapM_ok_of_forall {α β : Type} (f : α → Except String β) (g : α → β) :
    ∀ (l : List α), (∀ a ∈ l, f a = .ok (g a)) → l.mapM f = .ok (l.map g) := by
  intro l
  induction l with
  | nil => intro _; rfl
  | cons a t ih =>
    intro hall
    rw [List.mapM_cons, hall a (List.mem_cons_self a t),
      ih fun x hx => hall x (List.mem_cons_of_mem a hx)]
    rfl

/-- C3: when every corpus embedding has the query's dimension,
`findMostSimilar` succeeds with a list of length `min k |corpus|`, sorted
non-increasingly by score, and for every score value the results carrying
exactly that score form a prefix of the same-score results of the scored
corpus in corpus order (the stable tie-break). -/
theorem claim_C3_topk (queryEmbedding : List ℚ) (items : List EmbeddedItem) (k : ℕ)
    (h : ∀ it ∈ items, it.embedding.length = queryEmbedding.length) :
    ∃ l, findMostSimilar queryEmbedding items k = .ok l ∧
      l.length = min k items.length ∧
      (l.Pairwise fun a b => b.score ≤ a.score) ∧
      ∀ s : ℚ, l.filter (fun r => decide (r.score = s)) <+:
        (scoredResults queryEmbedding items).filter (fun r => decide (r.score = s)) := by
  have hmapM : (items.mapM fun item =>
      (cosineSimilarity queryEmbedding item.embedding).map (mkSearchResult item))
        = .ok (scoredResults queryEmbedding items) := by
    apply mapM_ok_of_forall
    intro it hit
    rw [cosineSimilarity_ok queryEmbedding it.embedding (h it hit).symm]
    rfl
  refine ⟨((scoredResults queryEmbedding items).insertionSort scoreDescRel).take k,
    ?_, ?_, ?_, ?_⟩
  · rw [findMostSimilar, hmapM]
    rfl
  · rw [List.length_take, List.length_insertionSort, scoredResults, List.length_map]
  · exact ((List.sorted_insertionSort scoreDescRel _).sublist (List.take_sublist _ _))
  · intro s
    have hp : ∀ a b : SearchResult, (decide (a.score = s)) →
        (decide (b.score = s)) → scoreDescRel a b := by
      intro a b ha hb
      simp only [decide_eq_true_eq] at ha hb
      exact le_of_eq (by rw [ha, hb])
    have h1 := filter_take_front (fun r : SearchResult => decide (r.score = s))
      ((scoredResults queryEmbedding items).insertionSort scoreDescRel) k
    rwa [filter_insertionSort_class scoreDescRel _ hp] at h1

unseal Rat.mul Rat.add Rat.sub Rat.inv Rat.ofScientific in
/-- Witness for C3: dimension-1 query over a two-item corpus with `k = 1`
succeeds and returns one result. -/
theorem claim_C3_witness :
    (findMostSimilar [1] demoItems 1).toOption.map List.length
      = some (min 1 demoItems.length) := by
  obtain ⟨l, h1, h2, -, -⟩ := claim_C3_topk [1] demoItems 1 (by decide)
  rw [h1]
  show some l.length = some (min 1 demoItems.length)
  rw [h2]

/-- Counterexample for C1: with an empty result list and a budget of 0
characters, `prepareContextWithLimit` returns the fixed 47-character
no-information message of `formatContextForLLM`, exceeding the budget; the
returned string's length is in general not bounded by `maxChars` because
the formatting applied to the accepted items differs from the budgeted
`"[source]\ntext\n"` blocks. -/
theorem claim_C1_counterexample :
    (prepareContextWithLimit [] 0).length = 47 ∧
    ¬((prepareContextWithLimit [] 0).length ≤ 0) := by
  exact ⟨by decide, by decide⟩

/-- C1 (amended): the selection loop of `prepareContextWithLimit` accepts a
prefix of the input (never part of an item), the total length of the
accepted items' budgeted blocks `"[source]\ntext\n"` stays within
`maxChars`, acceptance stops exactly at the first item whose block would
exceed the budget, a budget at least the total block length accepts every
item, and the returned string is `formatContextForLLM` of the accepted
items — a different format whose length may exceed `maxChars`. -/
theorem claim_C1_amended (results : List SearchResult) (maxChars : ℕ) :
    (∃ n, selectWithLimit maxChars results 0 = results.take n) ∧
    blockLenSum (selectWithLimit maxChars results 0) ≤ maxChars ∧
    (blockLenSum results ≤ maxChars → selectWithLimit maxChars results 0 = results) ∧
    ((selectWithLimit maxChars results 0).length < results.length →
      maxChars < blockLenSum (results.take ((selectWithLimit maxChars results 0).length + 1))) ∧
    prepareContextWithLimit results maxChars
      = formatContextForLLM (selectWithLimit maxChars results 0) := by
  refine ⟨selectWithLimit_take maxChars results 0, ?_, ?_, ?_, rfl⟩
  · rcases selectWithLimit_budget maxChars results 0 with h | h
    · omega
    · rw [h]; exact Nat.zero_le maxChars
  · intro hall
    exact selectWithLimit_all maxChars results 0 (by omega)
  · intro hlen
    have := selectWithLimit_stop maxChars results 0 hlen
    omega

unseal Rat.mul Rat.add Rat.sub Rat.inv Rat.ofScientific in
/-- Witness for C1: a budget of 100 accepts the whole demonstration list. -/
theorem claim_C1_witness :
    blockLenSum demoC1 ≤ 100 ∧ selectWithLimit 100 demoC1 0 = demoC1 :=
  ⟨by decide, (claim_C1_amended demoC1 100).2.2.1 (by decide)⟩

unseal Rat.mul Rat.add Rat.sub Rat.inv Rat.ofScientific in
/-- Counterexample for C5: with the empty query (overlap ratio 0) and a
candidate of score 0.12345, the code stores 0.0864 — the claimed exact value
`0.7 * 0.12345 + 0.3 * 0 = 0.086415` rounded to 4 decimals — so the stated
equation fails. -/
theorem claim_C5_counterexample :
    (rerankByKeywords "" [candC5]).map (·.rerank_score) = [0.0864] ∧
    keywordBoost "" candC5.text = 0 ∧
    (0.0864 : ℚ) ≠ 0.7 * candC5.score + 0.3 * keywordBoost "" candC5.text := by
  exact ⟨by decide, by decide, by decide⟩

/-- C5 (amended): every record of the keyword-boost pass carries
`rerank_score = round4(0.7 * original_score + 0.3 * overlap_ratio)` — the
exact combination rounded to four decimals by `parseFloat(toFixed(4))` —
where the overlap ratio is `|matching| / max(|query keywords|, 1)` over the
extracted word tokens, and `boost_reason` reports the match count exactly
when that count is positive. -/
theorem claim_C5_amended (q : String) (rs : List SearchResult) :
    ∀ x ∈ rerankByKeywords q rs,
      x.rerank_score = round4 (x.score * 0.7 + keywordBoost q x.text * 0.3) ∧
      x.boost_reason = (if (matchingKeywords q x.text).length > 0 then
        some ("Найдено " ++ toString (matchingKeywords q x.text).length ++ " ключевых слов")
        else none) ∧
      (x.boost_reason.isSome ↔ 0 < (matchingKeywords q x.text).length) := by
  intro x hx
  have hx' : x ∈ mapIdxFrom (kwRecord q) 0 rs :=
    (List.perm_insertionSort rankedDescRel _).mem_iff.mp hx
  obtain ⟨i, a, _, rfl⟩ := mem_mapIdxFrom hx'
  refine ⟨rfl, rfl, ?_⟩
  show (kwRecord q i a).boost_reason.isSome ↔ _
  simp only [kwRecord]
  by_cases h : (matchingKeywords q a.text).length > 0
  · rw [if_pos h]
    simpa using h
  · rw [if_neg h]
    simpa using h

unseal Rat.mul Rat.add Rat.sub Rat.inv Rat.ofScientific in
/-- Witness for C5 at the query `"abc"` matching the candidate text. -/
theorem claim_C5_witness :
    rankedC5w.rerank_score = round4 (rankedC5w.score * 0.7 + keywordBoost "abc" rankedC5w.text * 0.3) :=
  (claim_C5_amended "abc" [candC5w] rankedC5w (by decide)).1

/-! ## Lemmas about `lookupLast` -/

lemma lookupLast_none :
    ∀ (entries : List (String × ℚ)) (key : String),
      key ∉ entries.map Prod.fst → lookupLast entries key = none := by
  intro entries
  induction entries with
  | nil => intro key _; rfl
  | cons e rest ih =>
    intro key hk
    rcases e with ⟨k, v⟩
    simp only [List.map_cons, List.mem_cons, not_or] at hk
    rw [lookupLast, ih key hk.2, if_neg (fun he => hk.1 (by rw [he]))]

lemma lookupLast_found :
    ∀ (entries : List (String × ℚ)) (key : String),
      key ∈ entries.map Prod.fst →
      ∃ v, lookupLast entries key = some v ∧ (key, v) ∈ entries := by
  intro entries
  induction entries with
  | nil => intro key hk; cases hk
  | cons e rest ih =>
    intro key hk
    rcases e with ⟨k, v⟩
    by_cases hrest : key ∈ rest.map Prod.fst
    · obtain ⟨v', hv', hmem⟩ := ih key hrest
      exact ⟨v', by rw [lookupLast, hv'], List.mem_cons_of_mem _ hmem⟩
    · have hkk : k = key := by
        simp only [List.map_cons, List.mem_cons] at hk
        rcases hk with h | h
        · exact h.symm
        · exact absurd h hrest
      refine ⟨v, ?_, by rw [hkk]; exact List.mem_cons_self _ _⟩
      rw [lookupLast, lookupLast_none rest key hrest, if_pos hkk]

unseal Rat.mul Rat.add Rat.sub Rat.inv Rat.ofScientific in
/-- Counterexample for C4: the hybrid score (−0.0425) differs from the
claimed equal-weighted average of the keyword score (−0.035) and the
semantic score (0), which is −0.0175. -/
theorem claim_C4_counterexample :
    (rerankHybrid "" [candC4]).map (·.rerank_score) = [-(0.0425 : ℚ)] ∧
    (rerankByKeywords "" [candC4]).map (·.rerank_score) = [-(0.035 : ℚ)] ∧
    (rerankBySemantic "" [candC4]).map (·.rerank_score) = [(0 : ℚ)] ∧
    -(0.0425 : ℚ) ≠ 0.5 * -(0.035 : ℚ) + 0.5 * 0 := by
  exact ⟨by decide, by decide, by decide, by decide⟩

/-- C4 (amended): every record of the hybrid pass combines, rounded to four
decimals, half the candidate's keyword-boost score with half a semantic
contribution that is the candidate's semantic-deep score matched by id —
except that a semantic score equal to 0 (a JS-falsy value) degrades, like a
missing id would, to the candidate's original similarity score.  The
computation is total: no input raises. -/
theorem claim_C4_amended (q : String) (rs : List SearchResult) :
    ∀ x ∈ rerankHybrid q rs,
      ∃ kx ∈ rerankByKeywords q rs, ∃ sx ∈ rerankBySemantic q rs,
        kx.id = x.id ∧ sx.id = x.id ∧ x.score = kx.score ∧
        x.rerank_score = round4 (kx.rerank_score * 0.5 +
          (if sx.rerank_score = 0 then x.score else sx.rerank_score) * 0.5) := by
  intro x hx
  have hx' : x ∈ hybridBase q rs :=
    (List.perm_insertionSort rankedDescRel (hybridBase q rs)).mem_iff.mp hx
  simp only [hybridBase] at hx'
  obtain ⟨y, hy, rfl⟩ := List.mem_map.mp hx'
  have hid1 : y.id ∈ (rerankByKeywords q rs).map (·.id) := List.mem_map_of_mem (·.id) hy
  have hid2 : y.id ∈ rs.map (·.id) :=
    (sorted_mapIdx_ids_perm (kwRecord q) (fun _ _ => rfl) rs).mem_iff.mp hid1
  have hid3 : y.id ∈ (rerankBySemantic q rs).map (·.id) :=
    (sorted_mapIdx_ids_perm (semRecord q) (fun _ _ => rfl) rs).mem_iff.mpr hid2
  have hkey : y.id ∈ ((rerankBySemantic q rs).map fun r => (r.id, r.rerank_score)).map Prod.fst := by
    rw [List.map_map]
    exact hid3
  obtain ⟨v, hv, hmem⟩ := lookupLast_found _ y.id hkey
  obtain ⟨sx, hsx, hpair⟩ := List.mem_map.mp hmem
  have hsid : sx.id = y.id := congrArg Prod.fst hpair
  have hsscore : sx.rerank_score = v := congrArg Prod.snd hpair
  refine ⟨y, hy, sx, hsx, rfl, hsid, rfl, ?_⟩
  show (hybridCombine _ y).rerank_score = _
  simp only [hybridCombine, hv, hsscore]

unseal Rat.mul Rat.add Rat.sub Rat.inv Rat.ofScientific in
/-- Witness for C4 at the concrete one-candidate input of the
counterexample. -/
theorem claim_C4_witness :
    ∃ kx ∈ rerankByKeywords "" [candC4], ∃ sx ∈ rerankBySemantic "" [candC4],
      kx.id = rankedC4.id ∧ sx.id = rankedC4.id ∧ rankedC4.score = kx.score ∧
      rankedC4.rerank_score = round4 (kx.rerank_score * 0.5 +
        (if sx.rerank_score = 0 then rankedC4.score else sx.rerank_score) * 0.5) :=
  claim_C4_amended "" [candC4] rankedC4 (by decide)

/-- Helper for C6: stability of the sorted index-decorated passes,
expressed through the strictly increasing `original_rank` fields. -/
lemma sorted_mapIdx_ties (g : ℕ → SearchResult → RankedResult)
    (hg : ∀ n a, (g n a).original_rank = n + 1) (rs : List SearchResult) :
    ((mapIdxFrom g 0 rs).insertionSort rankedDescRel).Pairwise fun a b =>
      a.rerank_score = b.rerank_score → a.original_rank < b.original_rank := by
  refine @pairwise_of_filter_classes RankedResult (·.rerank_score)
    (fun a b => a.original_rank < b.original_rank) _ (fun s => ?_)
  have hp : ∀ a b : RankedResult, (decide (a.rerank_score = s)) →
      (decide (b.rerank_score = s)) → rankedDescRel a b := by
    intro a b ha hb
    simp only [decide_eq_true_eq] at ha hb
    exact le_of_eq (by rw [ha, hb])
  rw [filter_insertionSort_class rankedDescRel _ hp]
  exact (mapIdxFrom_rank_pairwise hg 0 rs).filter _

unseal Rat.mul Rat.add Rat.sub Rat.inv Rat.ofScientific in
/-- Counterexample for C6: the `none` passthrough never sorts, so an input
in ascending score order comes back in ascending (not non-increasing)
order. -/
theorem claim_C6_counterexample :
    (rerankResults "q" rsPair (cfgWith "none")).map (·.rerank_score) = [0.1, 0.9] ∧
    ¬((rerankResults "q" rsPair (cfgWith "none")).Pairwise fun a b =>
        b.rerank_score ≤ a.rerank_score) := by
  exact ⟨by decide, by decide⟩

/-- C6 (amended): the keyword-boost and semantic-deep outputs of
`rerankResults` are sorted non-increasingly by `rerank_score` with
exactly-equal scores kept in original input order (strictly increasing
`original_rank`); the hybrid output is sorted non-increasingly but breaks
exact ties in the order of the keyword pass (`hybridBase`), not the input
order; and the `none` method is an unsorted identity passthrough that
preserves the input order and copies each score. -/
theorem claim_C6_amended (q : String) (rs : List SearchResult) :
    ((rerankResults q rs (cfgWith "keyword-boost")).Pairwise fun a b =>
      b.rerank_score ≤ a.rerank_score) ∧
    ((rerankResults q rs (cfgWith "keyword-boost")).Pairwise fun a b =>
      a.rerank_score = b.rerank_score → a.original_rank < b.original_rank) ∧
    ((rerankResults q rs (cfgWith "semantic-deep")).Pairwise fun a b =>
      b.rerank_score ≤ a.rerank_score) ∧
    ((rerankResults q rs (cfgWith "semantic-deep")).Pairwise fun a b =>
      a.rerank_score = b.rerank_score → a.original_rank < b.original_rank) ∧
    ((rerankResults q rs (cfgWith "hybrid")).Pairwise fun a b =>
      b.rerank_score ≤ a.rerank_score) ∧
    (∀ s : ℚ, (rerankResults q rs (cfgWith "hybrid")).filter
        (fun r => decide (r.rerank_score = s)) =
      (hybridBase q rs).filter (fun r => decide (r.rerank_score = s))) ∧
    (rerankResults q rs (cfgWith "none")).map (·.toSearchResult) = rs ∧
    (∀ x ∈ rerankResults q rs (cfgWith "none"), x.rerank_score = x.score) := by
  rw [rerankResults_kw, rerankResults_sem, rerankResults_hyb, rerankResults_none]
  refine ⟨?_, ?_, ?_, ?_, ?_, ?_, ?_, ?_⟩
  · exact List.sorted_insertionSort rankedDescRel _
  · exact sorted_mapIdx_ties (kwRecord q) (fun _ _ => rfl) rs
  · exact List.sorted_insertionSort rankedDescRel _
  · exact sorted_mapIdx_ties (semRecord q) (fun _ _ => rfl) rs
  · exact List.sorted_insertionSort rankedDescRel _
  · intro s
    have hp : ∀ a b : RankedResult, (decide (a.rerank_score = s)) →
        (decide (b.rerank_score = s)) → rankedDescRel a b := by
      intro a b ha hb
      simp only [decide_eq_true_eq] at ha hb
      exact le_of_eq (by rw [ha, hb])
    exact filter_insertionSort_class rankedDescRel _ hp _
  · rw [mapIdxFrom_map noneRecord (·.toSearchResult) id (fun _ _ => rfl)]
    exact List.map_id rs
  · intro x hx
    obtain ⟨i, a, _, rfl⟩ := mem_mapIdxFrom hx
    rfl

/-- Witness for C6 at a concrete input: the `none` passthrough projects
back to the input list. -/
theorem claim_C6_witness :
    (rerankResults "q" rsPair (cfgWith "none")).map (·.toSearchResult) = rsPair :=
  (claim_C6_amended "q" rsPair).2.2.2.2.2.2.1

/-- Witness for C10: the method string `"llm"` at a concrete input falls
through to the hybrid branch. -/
theorem claim_C10_witness :
    rerankResults "q" demoC10 (cfgWith "llm") = rerankHybrid "q" demoC10 :=
  (claim_C10_default_hybrid "q" demoC10 "llm"
    (by decide) (by decide) (by decide) (by decide)).1

/-- C9: for every pair of equal-length vectors, `cosineSimilarity` returns
their dot product — the sum of pointwise products, with no normalization or
division — and it fails with the invalid-input error exactly when the two
vectors have different lengths. -/
theorem claim_C9_dot :
    (∀ v1 v2 : List ℚ, v1.length = v2.length →
      cosineSimilarity v1 v2 = .ok (dotProduct v1 v2)) ∧
    (∀ v1 v2 : List ℚ,
      (∃ e, cosineSimilarity v1 v2 = .error e) ↔ v1.length ≠ v2.length) := by
  refine ⟨fun v1 v2 h => cosineSimilarity_ok v1 v2 h, fun v1 v2 => ⟨?_, ?_⟩⟩
  · rintro ⟨e, he⟩ hlen
    rw [cosineSimilarity_ok v1 v2 hlen] at he
    cases he
  · intro hne
    exact ⟨_, by rw [cosineSimilarity, if_pos hne]⟩

/-- Witness for C9 at the concrete vectors `[1, 2]` and `[3, 4]`. -/
theorem claim_C9_witness :
    cosineSimilarity [1, 2] [3, 4] = .ok (dotProduct [1, 2] [3, 4]) :=
  claim_C9_dot.1 [1, 2] [3, 4] rfl

/-- C7: `evaluateContextQuality` classifies exactly by the stated
thresholds — empty gives `none`/0; `maxScore > 0.7` and `avgScore > 0.5`
give `high`/0.9; otherwise `maxScore > 0.5` and `avgScore > 0.3` give
`medium`/0.6; otherwise `low`/0.3 — where `avgScoreOf` is the arithmetic
mean of the scores and `maxScoreOf` is their maximum (characterised here as
a member of the score list that bounds every score). -/
theorem claim_C7_quality (results : List SearchResult) :
    (results = [] → evaluateContextQuality results =
      { quality := "none", confidence := 0
        recommendation := "Релевантной информации не найдено. Модель ответит из общих знаний." }) ∧
    (results ≠ [] →
      (maxScoreOf results ∈ results.map (·.score) ∧
        ∀ s ∈ results.map (·.score), s ≤ maxScoreOf results) ∧
      ((maxScoreOf results > 0.7 ∧ avgScoreOf results > 0.5) →
        (evaluateContextQuality results).quality = "high" ∧
        (evaluateContextQuality results).confidence = 0.9) ∧
      (¬(maxScoreOf results > 0.7 ∧ avgScoreOf results > 0.5) →
        (maxScoreOf results > 0.5 ∧ avgScoreOf results > 0.3) →
        (evaluateContextQuality results).quality = "medium" ∧
        (evaluateContextQuality results).confidence = 0.6) ∧
      (¬(maxScoreOf results > 0.7 ∧ avgScoreOf results > 0.5) →
        ¬(maxScoreOf results > 0.5 ∧ avgScoreOf results > 0.3) →
        (evaluateContextQuality results).quality = "low" ∧
        (evaluateContextQuality results).confidence = 0.3)) := by
  constructor
  · intro h; subst h; rfl
  · intro hne
    have hlen : ¬results.length = 0 := by simpa [List.length_eq_zero] using hne
    have hmap : results.map (·.score) ≠ [] := by
      simpa [List.map_eq_nil_iff] using hne
    refine ⟨foldMax_spec _ hmap, fun hc => ?_, fun h1 h2 => ?_, fun h1 h2 => ?_⟩
    · rw [evaluateContextQuality, if_neg hlen, if_pos hc]
      exact ⟨rfl, rfl⟩
    · rw [evaluateContextQuality, if_neg hlen, if_neg h1, if_pos h2]
      exact ⟨rfl, rfl⟩
    · rw [evaluateContextQuality, if_neg hlen, if_neg h1, if_neg h2]
      exact ⟨rfl, rfl⟩

unseal Rat.mul Rat.add Rat.sub Rat.inv Rat.ofScientific in
/-- Witness for C7: a singleton with score 0.8 is classified `high`/0.9. -/
theorem claim_C7_witness :
    (evaluateContextQuality demoHigh).quality = "high" ∧
    (evaluateContextQuality demoHigh).confidence = 0.9 :=
  ((claim_C7_quality demoHigh).2 (by decide)).2.1 (by decide)

/-- C8: quality classification is monotone in `maxScore` at fixed
`avgScore` (in the rank order none < low < medium < high), and the tier
`none` is assigned exactly to the empty input list. -/
theorem claim_C8_monotone :
    (∀ l1 l2 : List SearchResult, l1 ≠ [] → l2 ≠ [] →
      avgScoreOf l1 = avgScoreOf l2 →
      maxScoreOf l2 ≤ maxScoreOf l1 →
      tierRank (evaluateContextQuality l2).quality ≤
        tierRank (evaluateContextQuality l1).quality) ∧
    (∀ rs : List SearchResult, (evaluateContextQuality rs).quality = "none" ↔ rs = []) := by
  constructor
  · intro l1 l2 h1 h2 havg hmax
    rw [quality_eq l1 h1, quality_eq l2 h2, ← havg]
    exact tierRank_ite_mono (maxScoreOf l1) (maxScoreOf l2) (avgScoreOf l1) hmax
  · intro rs
    constructor
    · intro h
      by_contra hne
      rw [quality_eq rs hne] at h
      split_ifs at h <;> simp at h
    · intro h; subst h; rfl

unseal Rat.mul Rat.add Rat.sub Rat.inv Rat.ofScientific in
/-- Witness for C8 at two concrete lists with equal averages. -/
theorem claim_C8_witness :
    tierRank (evaluateContextQuality demoMaxLow).quality ≤
      tierRank (evaluateContextQuality demoMaxHigh).quality :=
  claim_C8_monotone.1 demoMaxHigh demoMaxLow (by decide) (by decide) (by decide) (by decide)

end SemanticSearch
